import Mathlib

/-!
Verification of the optcg price-tracking service (price_api.py, daily_snapshot.py).

Strings are modelled as `List Char`; Python floats as `Rat` (the price values in
play are exact decimals); `time.time()` instants as `Int` seconds.  Each
definition is a shallow embedding of the correspondingly named Python function;
HTML documents fetched from the upstream listing site are modelled as the
structure BeautifulSoup extracts from them (an optional table of rows, each row
knowing whether it contains a header cell and carrying its optional USD/EUR
price-link text and href).
-/

namespace OptcgSpec

/-- Python `str.isspace`-relevant characters stripped by `str.strip()`
(ASCII whitespace; the identifiers in play are ASCII). -/
def pyIsSpace (c : Char) : Bool :=
  c = ' ' || c = '\t' || c = '\n' || c = '\r' || c = '\x0b' || c = '\x0c'

/-- `str.strip()`: drop leading and trailing whitespace. -/
def pyStrip (s : List Char) : List Char :=
  (((s.dropWhile pyIsSpace).reverse).dropWhile pyIsSpace).reverse

/-- ASCII lowercase letter test (`a`..`z`). -/
def isLowerAZ (c : Char) : Bool := 97 ≤ c.toNat && c.toNat ≤ 122

/-- ASCII uppercase letter test (`A`..`Z`), the `[A-Z]` character class. -/
def isUpperAZ (c : Char) : Bool := 65 ≤ c.toNat && c.toNat ≤ 90

/-- The `[0-9]` / `\d` character class (ASCII digits). -/
def isDigitCh (c : Char) : Bool := 48 ≤ c.toNat && c.toNat ≤ 57

/-- `str.upper()` on one character (ASCII range, as used by the identifiers). -/
def pyToUpper (c : Char) : Char :=
  if isLowerAZ c then Char.ofNat (c.toNat - 32) else c

/-- `str.upper()`. -/
def pyUpper (s : List Char) : List Char := s.map pyToUpper

/-- Decimal digit character for a value `< 10`. -/
def digitCh (n : Nat) : Char :=
  if n = 0 then '0' else if n = 1 then '1' else if n = 2 then '2'
  else if n = 3 then '3' else if n = 4 then '4' else if n = 5 then '5'
  else if n = 6 then '6' else if n = 7 then '7' else if n = 8 then '8' else '9'

/-- Auxiliary accumulator form of decimal rendering.  The first argument is
fuel (structural recursion keeps the definition kernel-computable); any fuel
at least the value itself is enough, since the value shrinks by a factor of
ten per step. -/
def natDigitsAux : Nat → Nat → List Char → List Char
  | 0, _, acc => acc
  | _, 0, acc => acc
  | fuel + 1, n + 1, acc =>
    natDigitsAux fuel ((n + 1) / 10) (digitCh ((n + 1) % 10) :: acc)

/-- Python `str(n)` for a non-negative integer: decimal digits, no sign. -/
def natDigits (n : Nat) : List Char :=
  if n = 0 then ['0'] else natDigitsAux n n []

/-- Reference (proof-side) form of decimal rendering, defined by well-founded
recursion; `natDigits` agrees with it on positive input. -/
def natDigitsRec (n : Nat) : List Char :=
  if h : n = 0 then [] else natDigitsRec (n / 10) ++ [digitCh (n % 10)]
decreasing_by exact Nat.div_lt_self (Nat.pos_of_ne_zero h) (by norm_num)

/-- Python `int(s)` on a string of decimal digits. -/
def natOfDigits (ds : List Char) : Nat :=
  ds.foldl (fun a c => 10 * a + (c.toNat - 48)) 0

/-- Maximal leading run of digits, the greedy capture of `(\d+)`. -/
def takeDigits (s : List Char) : List Char := s.takeWhile isDigitCh

/-- Does the pattern `V=\d+` (case-insensitive) match starting at a position
whose character is `c` and whose remaining characters are `rest`? -/
def vEqStart (c : Char) (rest : List Char) : Bool :=
  (c = 'V' || c = 'v') && (rest.head? = some '=') &&
    (((rest.drop 1).head?.map isDigitCh).getD false)

/-- `re.search(r"V=(\d+)", s, IGNORECASE)` group 1 as an integer: scan left to
right for `V=` (or `v=`) immediately followed by at least one digit, capture
the maximal digit run.  This is also the digit capture of the pattern
`(?:\?|&)?V[=](\d+)` (the optional one-character prefix does not change the
captured digits, so `EMBEDDED_V_ANY_RE` and `EMBEDDED_V_PATH_RE` agree). -/
def findVEq : List Char → Option Nat
  | [] => none
  | c :: rest =>
    if vEqStart c rest then some (natOfDigits (takeDigits (rest.drop 1)))
    else findVEq rest

/-- Fuelled worker for `removeVEq`; any fuel at least the list length is
enough (every step consumes at least one character), and structural recursion
on the fuel keeps the definition kernel-computable. -/
def removeVEqAux : Nat → List Char → List Char
  | 0, _ => []
  | _, [] => []
  | fuel + 1, c :: rest =>
    if vEqStart c rest then removeVEqAux fuel ((rest.drop 1).dropWhile isDigitCh)
    else c :: removeVEqAux fuel rest

/-- `re.sub(r"V=\d+", "", s, IGNORECASE)`: left-to-right, non-overlapping,
each match (a `V=` with at least one following digit, digits taken greedily)
is deleted. -/
def removeVEq (s : List Char) : List Char := removeVEqAux s.length s

/-- `NORMAL_ID_RE = ^[A-Z]+[0-9]{2}-[0-9]{3}$` as a full-string match.  The
letter and digit classes are disjoint, so the greedy `[A-Z]+` must take every
leading letter, and what remains must be exactly two digits, a dash and three
digits. -/
def isNormalId (s : List Char) : Bool :=
  let rest := s.dropWhile isUpperAZ
  s.takeWhile isUpperAZ ≠ [] && rest.length = 6 &&
    isDigitCh (rest.getD 0 ' ') && isDigitCh (rest.getD 1 ' ') &&
    rest.getD 2 ' ' = '-' && isDigitCh (rest.getD 3 ' ') &&
    isDigitCh (rest.getD 4 ' ') && isDigitCh (rest.getD 5 ' ')

/-- `PROMO_ID_RE = ^P-[0-9]{3}$` as a full-string match. -/
def isPromoId (s : List Char) : Bool :=
  s.length = 5 && s.getD 0 ' ' = 'P' && s.getD 1 ' ' = '-' &&
    isDigitCh (s.getD 2 ' ') && isDigitCh (s.getD 3 ' ') && isDigitCh (s.getD 4 ' ')

/-- Not a query delimiter: the character class split on by
`re.split(r"[?&]", s, maxsplit=1)` when taking the first piece. -/
def notQAmp (c : Char) : Bool := !(c = '?' || c = '&')

/-- Characters allowed in a base code accepted by either grammar. -/
def BaseChar (c : Char) : Prop :=
  isUpperAZ c = true ∨ isDigitCh c = true ∨ c = '-'

/-- `normalize_card_and_version(card_id_raw, v_query)` (price_api.py).
Returns `none` where the Python raises `ValueError` (invalid card id). -/
def normalize_card_and_version (card_id_raw : List Char) (v_query : Option Int) :
    Option (List Char × Nat) :=
  let s := pyUpper (pyStrip card_id_raw)
  let embedded := findVEq s
  let version : Int :=
    match v_query with
    | some q => q
    | none => match embedded with | some e => (e : Int) | none => 0
  let version : Nat := version.toNat
  let base := pyStrip (removeVEq (s.takeWhile notQAmp))
  if isNormalId base || isPromoId base then some (base, version) else none

/-- `normalize_history_id(card_id_raw)` (price_api.py): lenient normalizer for
the history endpoints; on grammar failure it sanitizes (drops spaces and
slashes) instead of rejecting. -/
def normalize_history_id (card_id_raw : List Char) : List Char :=
  let s := pyUpper (pyStrip card_id_raw)
  let version := (findVEq s).getD 0
  let base := pyStrip (removeVEq (s.takeWhile notQAmp))
  let base :=
    if isNormalId base || isPromoId base then base
    else pyStrip (base.filter (fun c => !(c = ' ' || c = '/')))
  if version > 0 then base ++ 'v' :: '=' :: natDigits version else base

/-- The character class `[\d\.,]` of the price regex. -/
def isNumCh (c : Char) : Bool := isDigitCh c || c = '.' || c = ','

/-- `re.search(r"([\d\.,]+)", s)` group 1: the maximal run of
digits/dots/commas starting at the first such character. -/
def firstNumRun : List Char → Option (List Char)
  | [] => none
  | c :: rest =>
    if isNumCh c then some (c :: rest.takeWhile isNumCh) else firstNumRun rest

/-- Python `float(s)` restricted to strings over digits/dots/commas (the only
alphabet reaching it in `parse_price`): succeeds iff there is no comma, at
most one dot and at least one digit; the value is the decimal it spells. -/
def pyFloat (s : List Char) : Option Rat :=
  if s.all (fun c => isDigitCh c || c = '.') && s.count '.' ≤ 1 && s.any isDigitCh then
    let ip := s.takeWhile (fun c => !(c = '.'))
    let fp := (s.dropWhile (fun c => !(c = '.'))).drop 1
    -- the decimal ip.fp, i.e. (digits of ip followed by digits of fp) / 10^|fp|
    some (mkRat (natOfDigits (ip ++ fp)) (10 ^ fp.length))
  else none

/-- The U+00A0 no-break space replaced by `parse_price`. -/
def nbsp : Char := Char.ofNat 160

/-- `parse_price(text)` (identical in price_api.py and daily_snapshot.py):
extract the first numeric run, resolve comma/point ambiguity (both present →
comma is a thousands separator and is stripped; comma only → comma is the
decimal point), and fall back to `0.0` on any failure (the `try/except`
around `float`). -/
def parse_price (text : List Char) : Rat :=
  if text = [] then 0
  else
    match firstNumRun (pyStrip (text.map (fun c => if c = nbsp then ' ' else c))) with
    | none => 0
    | some s =>
      let s :=
        if s.contains ',' && s.contains '.' then s.filter (fun c => !(c = ','))
        else if s.contains ',' && !s.contains '.' then
          s.map (fun c => if c = ',' then '.' else c)
        else s
      (pyFloat s).getD 0

/-!  ## Bounded TTL + LRU cache (`TTLCacheLRU`)

The `OrderedDict` is modelled as a list of `(key, timestamp, value)` entries,
front = least recently used, back = most recently used. -/

/-- Ordered-dict state of a `TTLCacheLRU` instance. -/
abbrev CacheSt (α : Type) : Type := List (List Char × Int × α)

/-- `self._data.get(key)`: first entry with the key (keys are unique in an
`OrderedDict`, so first match is the match). -/
def lookupC {α : Type} (k : List Char) : CacheSt α → Option (Int × α)
  | [] => none
  | (k2, ts, v) :: rest => if k2 = k then some (ts, v) else lookupC k rest

/-- `self._data.pop(key)`: remove the entry with the key. -/
def eraseC {α : Type} (k : List Char) (st : CacheSt α) : CacheSt α :=
  st.filter (fun e => !(e.1 = k))

/-- `TTLCacheLRU._evict_expired_locked(now)`: pop from the least-recently-used
front until the front entry is not expired. -/
def evictExpired {α : Type} (ttl now : Int) (st : CacheSt α) : CacheSt α :=
  st.dropWhile (fun e => decide (now - e.2.1 > ttl))

/-- The size sweep of `TTLCacheLRU.set`: `while len > maxsize: popitem(last=False)`. -/
def dropToSize {α : Type} (maxsize : Nat) (st : CacheSt α) : CacheSt α :=
  st.drop (st.length - maxsize)

/-- `TTLCacheLRU.get(key)` at instant `now`: miss on absent key; an expired
hit is evicted and reported as a miss; a fresh hit is promoted to
most-recently-used.  Returns the result and the updated state. -/
def cacheGet {α : Type} (ttl now : Int) (k : List Char) (st : CacheSt α) :
    Option α × CacheSt α :=
  match lookupC k st with
  | none => (none, st)
  | some (ts, v) =>
    if now - ts > ttl then (none, eraseC k st)
    else (some v, eraseC k st ++ [(k, ts, v)])

/-- `TTLCacheLRU.set(key, value)` at instant `now`: insert/overwrite, mark
most-recently-used, sweep expired entries from the front, then enforce
`maxsize` by popping least-recently-used entries. -/
def cacheSet {α : Type} (ttl : Int) (maxsize : Nat) (now : Int) (k : List Char)
    (v : α) (st : CacheSt α) : CacheSt α :=
  dropToSize maxsize (evictExpired ttl now (eraseC k st ++ [(k, now, v)]))

/-!  ## Upstream documents and the scraper -/

/-- One `<tr>` of the prints table, as the scraper reads it: whether
`row.find("th")` is truthy, and the text/href of the optional USD and EUR
`a.card-price` links. -/
structure RowLinks where
  header : Bool
  usdText : Option (List Char)
  eurText : Option (List Char)
  usdHref : Option (List Char)
  eurHref : Option (List Char)
deriving DecidableEq

/-- A fetched document: `none` models a page with no recognizable price table
(all three selectors miss); `some trs` the `<tr>` list of the table found. -/
abbrev Doc : Type := Option (List RowLinks)

/-- A value of the JSON dict returned by `scrape_prices`. -/
inductive JVal where
  | num (q : Rat)
  | lnk (u : Option (List Char))
deriving DecidableEq

/-- The dict literal returned by `scrape_prices`. -/
def priceDict (u e : Rat) (uu eu : Option (List Char)) : List (String × JVal) :=
  [("usd_price", JVal.num u), ("eur_price", JVal.num e),
   ("usd_url", JVal.lnk uu), ("eur_url", JVal.lnk eu)]

/-- The four parallel indexings and the dict literal at the end of
`scrape_prices`; `none` models the uncaught `IndexError` when the index is
out of range (which, after the fallback, happens exactly when the row list is
empty). -/
def dictAt (usd_prices eur_prices : List Rat)
    (usd_urls eur_urls : List (Option (List Char))) (v : Nat) :
    Option (List (String × JVal)) :=
  match usd_prices[v]?, eur_prices[v]?, usd_urls[v]?, eur_urls[v]? with
  | some u, some e, some uu, some eu => some (priceDict u e uu eu)
  | _, _, _, _ => none

/-- `scrape_prices(base_id, version)` (price_api.py), parametrized by the
fetched document.  Header rows are skipped; a missing price link yields `0.0`
at that position; an out-of-range or empty-list version falls back to index
`0`.  Returns `none` where the Python raises an uncaught `IndexError`
(indexing position 0 of an empty extracted row list).  The Python
`float(xs[version] or 0.0)` is the identity on the parsed value (`x or 0.0`
is `x` for every float except `0.0`, where it is again `0.0`). -/
def scrape_prices (doc : Doc) (version : Nat) : Option (List (String × JVal)) :=
  match doc with
  | none => some (priceDict 0 0 none none)
  | some trs =>
    let rows := trs.filter (fun r => !r.header)
    let usd_prices := rows.map (fun r => ((r.usdText).map parse_price).getD 0)
    let eur_prices := rows.map (fun r => ((r.eurText).map parse_price).getD 0)
    let usd_urls := rows.map (fun r => r.usdHref)
    let eur_urls := rows.map (fun r => r.eurHref)
    let v := if usd_prices.length = 0 || usd_prices.length ≤ version then 0 else version
    dictAt usd_prices eur_prices usd_urls eur_urls v

/-- The `PRICE_CACHE` parameters: `TTLCacheLRU(maxsize=600, ttl_seconds=24*3600)`. -/
def PRICE_TTL : Int := 24 * 3600

/-- `PRICE_CACHE` maximum entry count. -/
def PRICE_MAXSIZE : Nat := 600

/-- The cache key built by `get_price` (price_api.py line 359):
`f-string base?v=version` when `version > 0`, else the base alone. -/
def priceCacheKey (base : List Char) (version : Nat) : List Char :=
  if version > 0 then base ++ '?' :: 'v' :: '=' :: natDigits version else base

/-- A response of `GET /price/{card_id}`.  `err` is the
`{"card_id": ..., "error": str(e)}` payload (no price data); `ok` carries the
canonical `card_id`, the `prices` dict and the `cached` flag; `crash` marks an
uncaught exception escaping the handler.  The `cache` stats field is omitted. -/
inductive PriceResponse where
  | err (card_id : List Char)
  | ok (card_id : List Char) (prices : List (String × JVal)) (cached : Bool)
  | crash
deriving DecidableEq

/-- `get_price(card_id, v)` (price_api.py), parametrized by the cache state,
the current instant and the document the scrape would fetch.  Returns the
response and the updated cache state. -/
def get_price (card_id : List Char) (v : Option Int) (st : CacheSt (List (String × JVal)))
    (now : Int) (doc : Doc) : PriceResponse × CacheSt (List (String × JVal)) :=
  match normalize_card_and_version card_id v with
  | none => (PriceResponse.err card_id, st)
  | some (base, version) =>
    let key := priceCacheKey base version
    match cacheGet PRICE_TTL now key st with
    | (some val, st1) => (PriceResponse.ok key val true, st1)
    | (none, st1) =>
      match scrape_prices doc version with
      | none => (PriceResponse.crash, st1)
      | some prices =>
        (PriceResponse.ok key prices false,
         cacheSet PRICE_TTL PRICE_MAXSIZE now key prices st1)

/-- Well-formedness of the `PRICE_CACHE` contents: every cached value is a
`scrape_prices` dict, i.e. has exactly the four price/link keys. -/
def cacheWF (st : CacheSt (List (String × JVal))) : Prop :=
  ∀ e ∈ st, (e.2.2).map Prod.fst = ["usd_price", "eur_price", "usd_url", "eur_url"]

/-!  ## Snapshot store (history.db) -/

/-- One row of a history table (`card_history` / `sealed_history` /
`don_history`): key column, `date` (ISO date modelled by a totally ordered
abstract day number), `eur_price`, `usd_price`. -/
structure SnapRow where
  key : List Char
  date : Nat
  eur : Rat
  usd : Rat
deriving DecidableEq

/-- `INSERT OR IGNORE` into a table declared `UNIQUE(key, date)`: the row is
appended unless a row with the same `(key, date)` already exists, in which
case the statement is a no-op. -/
def insertOrIgnore (r : SnapRow) (t : List SnapRow) : List SnapRow :=
  if t.any (fun x => x.key = r.key && x.date = r.date) then t else t ++ [r]

/-- The `(key, date)` uniqueness invariant of the history tables. -/
def uniqueKeyDate (t : List SnapRow) : Prop :=
  t.Pairwise (fun a b => ¬(a.key = b.key ∧ a.date = b.date))

/-- Descending-date comparison used by `ORDER BY date DESC`. -/
def dateGE (a b : SnapRow) : Prop := b.date ≤ a.date

instance : DecidableRel dateGE := fun a b => inferInstanceAs (Decidable (b.date ≤ a.date))

instance : IsTotal SnapRow dateGE := ⟨fun a b => Nat.le_total b.date a.date⟩

instance : IsTrans SnapRow dateGE := ⟨fun _ _ _ h1 h2 => Nat.le_trans h2 h1⟩

/-- `fetch_history(table, key_col, key_val, limit)` (price_api.py): clamp the
limit (`None`/non-positive → 365, cap at 2000), select the rows of the key,
order by date descending (`insertionSort` stands for SQLite's sort: any order
consistent with `date DESC`), take the most recent `limit` rows, and reverse
into ascending chronological order; each row is projected to
`(date, eur_price, usd_price)`. -/
def fetch_history (t : List SnapRow) (key_val : List Char) (limit : Option Int) :
    List (Nat × Rat × Rat) :=
  let lim : Int := limit.getD 365
  let lim : Int := if lim ≤ 0 then 365 else lim
  let lim : Nat := if lim > 2000 then 2000 else lim.toNat
  ((((t.filter (fun r => r.key = key_val)).insertionSort dateGE).take lim).reverse).map
    (fun r => (r.date, r.eur, r.usd))

/-!  ## Daily batch (daily_snapshot.py) -/

/-- The per-print card id built by `extract_versions` (daily_snapshot.py line
141): the base code for index 0, `f-string codev=idx` for later prints. -/
def versionKey (card_code : List Char) (idx : Nat) : List Char :=
  if idx = 0 then card_code else card_code ++ 'v' :: '=' :: natDigits idx

/-- `extract_versions(card_code)` (daily_snapshot.py), parametrized by the
fetched document: one id per non-header row of the prints table, numbered in
order; no table → empty list. -/
def extract_versions (card_code : List Char) (doc : Doc) : List (List Char) :=
  match doc with
  | none => []
  | some trs =>
    (List.range (trs.filter (fun r => !r.header)).length).map (versionKey card_code)

/-- `re.match(r"([A-Z]+[0-9]{2}-[0-9]{3})", s)` group 1: an anchored prefix
match (greedy letters, then the fixed digit/dash shape). -/
def basePrefixMatch (s : List Char) : Option (List Char) :=
  let letters := s.takeWhile isUpperAZ
  if letters = [] then none
  else
    match s.drop letters.length with
    | a :: b :: h :: c :: d :: e :: _ =>
      if isDigitCh a && isDigitCh b && h = '-' && isDigitCh c && isDigitCh d && isDigitCh e
      then some (letters ++ [a, b, h, c, d, e]) else none
    | _ => none

/-- `re.search(r"v=(\d+)", s)` (case-sensitive, as in `scrape_card_price`). -/
def findLowerVEq : List Char → Option Nat
  | [] => none
  | c :: rest =>
    if (c = 'v') && (rest.head? = some '=') &&
        (((rest.drop 1).head?.map isDigitCh).getD false) then
      some (natOfDigits (takeDigits (rest.drop 1)))
    else findLowerVEq rest

/-- `scrape_card_price(card_id)` (daily_snapshot.py), parametrized by the
fetch outcome (`Except.error` models a raised network/HTTP error, `Except.ok`
the parsed document).  The whole body is wrapped in `try/except`, so an
unmatched base id (`AttributeError`), a failed fetch, or the `IndexError` on
an empty extracted row list all yield `(0.0, 0.0)`.  Returns `(eur, usd)`. -/
def scrape_card_price (card_id : List Char) (fetched : Except Unit Doc) : Rat × Rat :=
  match basePrefixMatch card_id with
  | none => (0, 0)
  | some _ =>
    let version := (findLowerVEq card_id).getD 0
    match fetched with
    | Except.error _ => (0, 0)
    | Except.ok none => (0, 0)
    | Except.ok (some trs) =>
      let rows := trs.filter (fun r => !r.header)
      let usd := rows.map (fun r => ((r.usdText).map parse_price).getD 0)
      let eur := rows.map (fun r => ((r.eurText).map parse_price).getD 0)
      let version := if usd.length ≤ version then 0 else version
      match eur[version]?, usd[version]? with
      | some e, some u => (e, u)
      | _, _ => (0, 0)

/-- The cards section of `main()` (daily_snapshot.py): for each base code,
list its print ids (`extract_versions`; a raised exception — `versionsOf`
returning `none` — skips the code), scrape each id, skip ids whose EUR and
USD prices are both zero, and `INSERT OR IGNORE` the rest for today's date. -/
def batchCards (versionsOf : List Char → Option (List (List Char)))
    (scrape : List Char → Rat × Rat) (today : Nat)
    (codes : List (List Char)) (t : List SnapRow) : List SnapRow :=
  codes.foldl
    (fun tbl code =>
      match versionsOf code with
      | none => tbl
      | some cids =>
        cids.foldl
          (fun tbl2 cid =>
            let p := scrape cid
            if p.1 = 0 && p.2 = 0 then tbl2
            else insertOrIgnore ⟨cid, today, p.1, p.2⟩ tbl2)
          tbl)
    t

/-!  ## Generic list and character lemmas -/

theorem takeWhile_eq_self {β : Type} {p : β → Bool} {l : List β}
    (h : ∀ c ∈ l, p c = true) : l.takeWhile p = l := by
  induction l with
  | nil => rfl
  | cons c t ih =>
    rw [List.takeWhile_cons, if_pos (h c (by simp)), ih (fun x hx => h x (by simp [hx]))]

theorem dropWhile_eq_nil {β : Type} {p : β → Bool} {l : List β}
    (h : ∀ c ∈ l, p c = true) : l.dropWhile p = [] := by
  induction l with
  | nil => rfl
  | cons c t ih =>
    rw [List.dropWhile_cons, if_pos (h c (by simp))]
    exact ih (fun x hx => h x (by simp [hx]))

theorem dropWhile_eq_self {β : Type} {p : β → Bool} {l : List β}
    (h : ∀ c ∈ l, p c = false) : l.dropWhile p = l := by
  cases l with
  | nil => rfl
  | cons c t => rw [List.dropWhile_cons, if_neg (by simp [h c (by simp)])]

theorem pyStrip_eq_self {l : List Char} (h : ∀ c ∈ l, pyIsSpace c = false) :
    pyStrip l = l := by
  unfold pyStrip
  rw [dropWhile_eq_self h, dropWhile_eq_self (fun c hc => h c (List.mem_reverse.mp hc)),
    List.reverse_reverse]

theorem pyUpper_eq_self {l : List Char} (h : ∀ c ∈ l, pyToUpper c = c) :
    pyUpper l = l := by
  induction l with
  | nil => rfl
  | cons c t ih =>
    simp only [pyUpper, List.map_cons] at *
    rw [h c (by simp), ih (fun x hx => h x (by simp [hx]))]

theorem char_toNat_inj {a b : Char} (h : a.toNat = b.toNat) : a = b :=
  Char.eq_of_val_eq (UInt32.ext h)

/-!  ## Digit-character and decimal-rendering lemmas -/

theorem digitCh_isDigit {n : Nat} (h : n < 10) : isDigitCh (digitCh n) = true := by
  interval_cases n <;> decide

theorem digitCh_toNat {n : Nat} (h : n < 10) : (digitCh n).toNat = 48 + n := by
  interval_cases n <;> decide

theorem natDigitsAux_zero (fuel : Nat) (acc : List Char) :
    natDigitsAux fuel 0 acc = acc := by
  cases fuel <;> rfl

theorem natDigitsAux_eq_rec (n : Nat) : ∀ fuel acc, 0 < n → n ≤ fuel →
    natDigitsAux fuel n acc = natDigitsRec n ++ acc := by
  induction n using Nat.strong_induction_on with
  | _ n ih =>
    intro fuel acc hpos hle
    obtain ⟨m, rfl⟩ : ∃ m, n = m + 1 := ⟨n - 1, by omega⟩
    obtain ⟨f, rfl⟩ : ∃ f, fuel = f + 1 := ⟨fuel - 1, by omega⟩
    show natDigitsAux f ((m + 1) / 10) (digitCh ((m + 1) % 10) :: acc) = _
    rw [natDigitsRec, dif_neg (Nat.succ_ne_zero m)]
    by_cases hq : (m + 1) / 10 = 0
    · rw [hq, natDigitsAux_zero]
      simp [hq, show natDigitsRec 0 = [] from by rw [natDigitsRec]; simp]
    · rw [ih ((m + 1) / 10) (Nat.div_lt_self (Nat.succ_pos m) (by norm_num)) f
        (digitCh ((m + 1) % 10) :: acc) (Nat.pos_of_ne_zero hq)
        (by
          have := Nat.div_lt_self (Nat.succ_pos m) (show 1 < 10 by norm_num)
          omega)]
      simp

theorem natDigits_eq_rec {n : Nat} (h : 0 < n) : natDigits n = natDigitsRec n := by
  unfold natDigits
  rw [if_neg (Nat.pos_iff_ne_zero.mp h), natDigitsAux_eq_rec n n [] h le_rfl,
    List.append_nil]

theorem natDigitsRec_all_digits (n : Nat) : ∀ c ∈ natDigitsRec n, isDigitCh c = true := by
  induction n using Nat.strong_induction_on with
  | _ n ih =>
    intro c hc
    rw [natDigitsRec] at hc
    by_cases h0 : n = 0
    · rw [dif_pos h0] at hc
      simp at hc
    · rw [dif_neg h0] at hc
      rcases List.mem_append.mp hc with h1 | h2
      · exact ih (n / 10) (Nat.div_lt_self (Nat.pos_of_ne_zero h0) (by norm_num)) c h1
      · have : c = digitCh (n % 10) := by simpa using h2
        rw [this]
        exact digitCh_isDigit (Nat.mod_lt n (by norm_num))

theorem natDigits_all_digits (n : Nat) : ∀ c ∈ natDigits n, isDigitCh c = true := by
  by_cases h0 : n = 0
  · intro c hc
    rw [h0] at hc
    simp [natDigits] at hc
    rw [hc]
    decide
  · rw [natDigits_eq_rec (Nat.pos_of_ne_zero h0)]
    exact natDigitsRec_all_digits n

theorem natDigits_ne_nil (n : Nat) : natDigits n ≠ [] := by
  by_cases h0 : n = 0
  · rw [h0]
    decide
  · rw [natDigits_eq_rec (Nat.pos_of_ne_zero h0), natDigitsRec, dif_neg h0]
    simp

theorem natOfDigits_foldl_init (a : Nat) (l : List Char) :
    l.foldl (fun a c => 10 * a + (c.toNat - 48)) a =
      a * 10 ^ l.length + natOfDigits l := by
  induction l generalizing a with
  | nil => simp [natOfDigits]
  | cons c t ih =>
    have h1 : natOfDigits (c :: t) =
        (10 * 0 + (c.toNat - 48)) * 10 ^ t.length + natOfDigits t := by
      show t.foldl _ (10 * 0 + (c.toNat - 48)) = _
      exact ih _
    show t.foldl _ (10 * a + (c.toNat - 48)) = _
    rw [ih (10 * a + (c.toNat - 48)), h1, List.length_cons]
    ring

theorem natOfDigits_append (l1 l2 : List Char) :
    natOfDigits (l1 ++ l2) =
      natOfDigits l1 * 10 ^ l2.length + natOfDigits l2 := by
  unfold natOfDigits
  rw [List.foldl_append]
  exact natOfDigits_foldl_init _ l2

theorem natOfDigits_rec (n : Nat) : natOfDigits (natDigitsRec n) = n := by
  induction n using Nat.strong_induction_on with
  | _ n ih =>
    rw [natDigitsRec]
    by_cases h0 : n = 0
    · rw [dif_pos h0, h0]
      rfl
    · rw [dif_neg h0, natOfDigits_append,
        ih (n / 10) (Nat.div_lt_self (Nat.pos_of_ne_zero h0) (by norm_num))]
      have hm : (digitCh (n % 10)).toNat = 48 + n % 10 :=
        digitCh_toNat (Nat.mod_lt n (by norm_num))
      show n / 10 * 10 ^ 1 + ([digitCh (n % 10)].foldl _ 0) = n
      simp only [List.foldl_cons, List.foldl_nil, hm]
      omega

theorem natOfDigits_natDigits (n : Nat) : natOfDigits (natDigits n) = n := by
  by_cases h0 : n = 0
  · rw [h0]
    rfl
  · rw [natDigits_eq_rec (Nat.pos_of_ne_zero h0)]
    exact natOfDigits_rec n

/-!  ## Character-class facts for the identifier grammar -/

theorem isDigitCh_toNat {c : Char} (h : isDigitCh c = true) :
    48 ≤ c.toNat ∧ c.toNat ≤ 57 := by
  simpa [isDigitCh] using h

theorem isUpperAZ_toNat {c : Char} (h : isUpperAZ c = true) :
    65 ≤ c.toNat ∧ c.toNat ≤ 90 := by
  simpa [isUpperAZ] using h

theorem baseChar_facts {c : Char} (h : BaseChar c) :
    pyIsSpace c = false ∧ pyToUpper c = c ∧ notQAmp c = true ∧ c ≠ '=' := by
  have htoNat : (65 ≤ c.toNat ∧ c.toNat ≤ 90) ∨ (48 ≤ c.toNat ∧ c.toNat ≤ 57) ∨
      c.toNat = 45 := by
    rcases h with h | h | h
    · exact Or.inl (isUpperAZ_toNat h)
    · exact Or.inr (Or.inl (isDigitCh_toNat h))
    · right; right; rw [h]; rfl
  have hne : ∀ d : Char, ¬((65 ≤ d.toNat ∧ d.toNat ≤ 90) ∨ (48 ≤ d.toNat ∧ d.toNat ≤ 57) ∨
      d.toNat = 45) → c ≠ d := by
    intro d hd he
    rw [he] at htoNat
    exact hd htoNat
  refine ⟨?_, ?_, ?_, ?_⟩
  · simp only [pyIsSpace, Bool.or_eq_false_iff, decide_eq_false_iff_not]
    exact ⟨⟨⟨⟨⟨hne ' ' (by decide), hne '\t' (by decide)⟩, hne '\n' (by decide)⟩,
      hne '\r' (by decide)⟩, hne '\x0b' (by decide)⟩, hne '\x0c' (by decide)⟩
  · have : isLowerAZ c = false := by
      simp only [isLowerAZ, Bool.and_eq_false_iff, decide_eq_false_iff_not]
      omega
    simp [pyToUpper, this]
  · simp only [notQAmp, Bool.or_eq_false_iff, Bool.not_eq_true', decide_eq_false_iff_not]
    exact ⟨hne '?' (by decide), hne '&' (by decide)⟩
  · exact hne '=' (by decide)

theorem digit_baseChar {c : Char} (h : isDigitCh c = true) : BaseChar c :=
  Or.inr (Or.inl h)

theorem mem_of_getD {l : List Char} {i : Nat} (h : i < l.length) :
    l.getD i ' ' ∈ l := by
  rw [List.getD_eq_getElem l ' ' h]
  exact List.getElem_mem h

/-- Every character of a base code accepted by either grammar is a letter, a
digit, or the dash. -/
theorem valid_base_chars {B : List Char} (hB : (isNormalId B || isPromoId B) = true) :
    ∀ c ∈ B, BaseChar c := by
  intro c hc
  rcases Bool.or_eq_true _ _ |>.mp hB with h | h
  · simp only [isNormalId, Bool.and_eq_true, decide_eq_true_eq, ne_eq] at h
    obtain ⟨⟨⟨⟨⟨⟨⟨_, hlen⟩, h0⟩, h1⟩, h2⟩, h3⟩, h4⟩, h5⟩ := h
    have hsplit := List.takeWhile_append_dropWhile (p := isUpperAZ) (l := B)
    rw [← hsplit] at hc
    rcases List.mem_append.mp hc with hmem | hmem
    · exact Or.inl (List.mem_takeWhile_imp hmem)
    · set rest := B.dropWhile isUpperAZ with hrest
      obtain ⟨i, hi, hgt⟩ := List.mem_iff_getElem.mp hmem
      have : c = rest.getD i ' ' := by
        rw [List.getD_eq_getElem rest ' ' hi, hgt]
      rw [this]
      rw [hlen] at hi
      interval_cases i
      · exact digit_baseChar h0
      · exact digit_baseChar h1
      · exact Or.inr (Or.inr h2)
      · exact digit_baseChar h3
      · exact digit_baseChar h4
      · exact digit_baseChar h5
  · simp only [isPromoId, Bool.and_eq_true, decide_eq_true_eq] at h
    obtain ⟨⟨⟨⟨⟨hlen, h0⟩, h1⟩, h2⟩, h3⟩, h4⟩ := h
    obtain ⟨i, hi, hgt⟩ := List.mem_iff_getElem.mp hc
    have : c = B.getD i ' ' := by
      rw [List.getD_eq_getElem B ' ' hi, hgt]
    rw [this]
    rw [hlen] at hi
    interval_cases i
    · rw [h0]; exact Or.inl (by decide)
    · rw [h1]; exact Or.inr (Or.inr rfl)
    · exact digit_baseChar h2
    · exact digit_baseChar h3
    · exact digit_baseChar h4

/-!  ## Lemmas about the embedded-version regex operations -/

theorem vEqStart_false_of_head {c : Char} {rest : List Char}
    (h : rest.head? ≠ some '=') : vEqStart c rest = false := by
  simp [vEqStart, h]

theorem vEqStart_true {c d : Char} {ds : List Char} (hc : c = 'V' ∨ c = 'v')
    (hd : isDigitCh d = true) : vEqStart c ('=' :: d :: ds) = true := by
  rcases hc with h | h <;> subst h <;> simp [vEqStart, hd]

/-- In `B ++ tail` where no character of `B` is `=` and `tail` is empty or
starts with `V=`, no position inside `B` starts a match of `V=\d+`. -/
theorem vEqStart_false_within {b : Char} {B' tail : List Char}
    (hB' : ∀ c ∈ B', c ≠ '=')
    (htail : tail = [] ∨ ∃ ds, tail = 'V' :: '=' :: ds) :
    vEqStart b (B' ++ tail) = false := by
  apply vEqStart_false_of_head
  cases B' with
  | cons c t =>
    simp only [List.cons_append, List.head?_cons, ne_eq, Option.some_inj]
    simpa using hB' c (by simp)
  | nil =>
    rcases htail with h | ⟨ds, h⟩ <;> subst h <;> simp

theorem findVEq_append_v {B ds : List Char} (hB : ∀ c ∈ B, c ≠ '=')
    (hne : ds ≠ []) (hds : ∀ c ∈ ds, isDigitCh c = true) :
    findVEq (B ++ 'V' :: '=' :: ds) = some (natOfDigits ds) := by
  induction B with
  | nil =>
    obtain ⟨d, ds', rfl⟩ : ∃ d ds', ds = d :: ds' := by
      cases ds with
      | nil => exact absurd rfl hne
      | cons d ds' => exact ⟨d, ds', rfl⟩
    rw [List.nil_append]
    show (if vEqStart 'V' ('=' :: d :: ds') then _ else _) = _
    rw [if_pos (vEqStart_true (Or.inl rfl) (hds d (by simp)))]
    simp only [List.drop_one, List.tail_cons]
    rw [show takeDigits (d :: ds') = d :: ds' from takeWhile_eq_self hds]
  | cons b B' ih =>
    rw [List.cons_append]
    show (if vEqStart b (B' ++ 'V' :: '=' :: ds) then _ else _) = _
    rw [if_neg (by
      rw [vEqStart_false_within (fun c hc => hB c (by simp [hc])) (Or.inr ⟨ds, rfl⟩)]
      simp)]
    exact ih (fun c hc => hB c (by simp [hc]))

theorem findVEq_none {l : List Char} (h : ∀ c ∈ l, c ≠ '=') : findVEq l = none := by
  induction l with
  | nil => rfl
  | cons c rest ih =>
    show (if vEqStart c rest then _ else _) = _
    rw [if_neg (by
      rw [vEqStart_false_of_head (by
        cases rest with
        | nil => simp
        | cons r t =>
          simp only [List.head?_cons, ne_eq, Option.some_inj]
          simpa using h r (by simp))]
      simp)]
    exact ih (fun x hx => h x (by simp [hx]))

theorem removeVEqAux_nil (fuel : Nat) : removeVEqAux fuel [] = [] := by
  cases fuel <;> rfl

theorem removeVEqAux_spec {B : List Char} (hB : ∀ c ∈ B, c ≠ '=')
    {tail : List Char}
    (htail : tail = [] ∨ ∃ ds, tail = 'V' :: '=' :: ds ∧ ds ≠ [] ∧
      ∀ c ∈ ds, isDigitCh c = true) :
    ∀ fuel, B.length + tail.length ≤ fuel → removeVEqAux fuel (B ++ tail) = B := by
  induction B with
  | nil =>
    intro fuel hfuel
    rcases htail with h | ⟨ds, h, hne, hds⟩
    · subst h
      exact removeVEqAux_nil fuel
    · subst h
      obtain ⟨d, ds', rfl⟩ : ∃ d ds', ds = d :: ds' := by
        cases ds with
        | nil => exact absurd rfl hne
        | cons d ds' => exact ⟨d, ds', rfl⟩
      obtain ⟨f, rfl⟩ : ∃ f, fuel = f + 1 := ⟨fuel - 1, by simp at hfuel; omega⟩
      rw [List.nil_append]
      show (if vEqStart 'V' ('=' :: d :: ds') then removeVEqAux f _ else _) = _
      rw [if_pos (vEqStart_true (Or.inl rfl) (hds d (by simp)))]
      simp only [List.drop_one, List.tail_cons]
      rw [dropWhile_eq_nil hds]
      exact removeVEqAux_nil f
  | cons b B' ih =>
    intro fuel hfuel
    obtain ⟨f, rfl⟩ : ∃ f, fuel = f + 1 := ⟨fuel - 1, by simp at hfuel; omega⟩
    rw [List.cons_append]
    have htail' : tail = [] ∨ ∃ ds, tail = 'V' :: '=' :: ds := by
      rcases htail with h | ⟨ds, h, _, _⟩
      · exact Or.inl h
      · exact Or.inr ⟨ds, h⟩
    show (if vEqStart b (B' ++ tail) then _ else _) = _
    rw [if_neg (by
      rw [vEqStart_false_within (fun c hc => hB c (by simp [hc])) htail']
      simp)]
    rw [ih (fun c hc => hB c (by simp [hc])) f (by simp at hfuel ⊢; omega)]

theorem removeVEq_append_v {B ds : List Char} (hB : ∀ c ∈ B, c ≠ '=')
    (hne : ds ≠ []) (hds : ∀ c ∈ ds, isDigitCh c = true) :
    removeVEq (B ++ 'V' :: '=' :: ds) = B := by
  unfold removeVEq
  exact removeVEqAux_spec hB (Or.inr ⟨ds, rfl, hne, hds⟩) _ (by simp)

theorem removeVEq_id {B : List Char} (hB : ∀ c ∈ B, c ≠ '=') : removeVEq B = B := by
  unfold removeVEq
  have := removeVEqAux_spec hB (Or.inl rfl) B.length (by simp)
  simpa using this

/-!  ## Normalizer round-trip lemmas -/

theorem base_facts {B : List Char} (hB : (isNormalId B || isPromoId B) = true) :
    ∀ c ∈ B, pyIsSpace c = false ∧ pyToUpper c = c ∧ notQAmp c = true ∧ c ≠ '=' :=
  fun c hc => baseChar_facts (valid_base_chars hB c hc)

/-- All characters of `B ++ V=ds` (upper- or lowercase marker) are non-space,
survive `str.upper()` unchanged except a lowercase `v` which becomes `V`, and
are not query delimiters. -/
theorem encoded_facts {B ds : List Char} (hB : (isNormalId B || isPromoId B) = true)
    (hds : ∀ c ∈ ds, isDigitCh c = true) (m : Char) (hm : m = 'V' ∨ m = 'v') :
    ∀ c ∈ B ++ m :: '=' :: ds, pyIsSpace c = false ∧ notQAmp c = true := by
  intro c hc
  rcases List.mem_append.mp hc with h | h
  · exact ⟨(base_facts hB c h).1, (base_facts hB c h).2.2.1⟩
  · simp only [List.mem_cons] at h
    rcases h with rfl | rfl | h
    · rcases hm with rfl | rfl <;> exact ⟨by decide, by decide⟩
    · exact ⟨by decide, by decide⟩
    · have := baseChar_facts (digit_baseChar (hds c h))
      exact ⟨this.1, this.2.2.1⟩

theorem pyUpper_digits {ds : List Char} (hds : ∀ c ∈ ds, isDigitCh c = true) :
    pyUpper ds = ds :=
  pyUpper_eq_self fun c hc => (baseChar_facts (digit_baseChar (hds c hc))).2.1

theorem pyUpper_base {B : List Char} (hB : (isNormalId B || isPromoId B) = true) :
    pyUpper B = B :=
  pyUpper_eq_self fun c hc => (base_facts hB c hc).2.1

theorem pyUpper_encoded {B ds : List Char} (hB : (isNormalId B || isPromoId B) = true)
    (hds : ∀ c ∈ ds, isDigitCh c = true) (m : Char) (hm : m = 'V' ∨ m = 'v') :
    pyUpper (B ++ m :: '=' :: ds) = B ++ 'V' :: '=' :: ds := by
  unfold pyUpper
  rw [List.map_append, List.map_cons, List.map_cons]
  rw [show List.map pyToUpper B = B from pyUpper_base hB,
    show List.map pyToUpper ds = ds from pyUpper_digits hds]
  rcases hm with rfl | rfl <;> rfl

/-- The heart of claim C4: normalizing a valid base code with an appended
`V=<digits>` marker and no explicit version parameter recovers the base code
and the marker's value. -/
theorem normalize_encoded {B ds : List Char} (hB : (isNormalId B || isPromoId B) = true)
    (hne : ds ≠ []) (hds : ∀ c ∈ ds, isDigitCh c = true) (m : Char)
    (hm : m = 'V' ∨ m = 'v') :
    normalize_card_and_version (B ++ m :: '=' :: ds) none = some (B, natOfDigits ds) := by
  have hfacts := encoded_facts hB hds m hm
  have hnoeq : ∀ c ∈ B, c ≠ '=' := fun c hc => (base_facts hB c hc).2.2.2
  simp only [normalize_card_and_version]
  rw [pyStrip_eq_self (fun c hc => (hfacts c hc).1), pyUpper_encoded hB hds m hm,
    takeWhile_eq_self (fun c hc =>
      (encoded_facts hB hds 'V' (Or.inl rfl) c hc).2),
    findVEq_append_v hnoeq hne hds, removeVEq_append_v hnoeq hne hds,
    pyStrip_eq_self (fun c hc => (base_facts hB c hc).1), if_pos hB]
  simp

/-- Normalizing a bare valid base code (no version marker anywhere). -/
theorem normalize_bare {B : List Char} (hB : (isNormalId B || isPromoId B) = true) :
    normalize_card_and_version B none = some (B, 0) := by
  have hnoeq : ∀ c ∈ B, c ≠ '=' := fun c hc => (base_facts hB c hc).2.2.2
  simp only [normalize_card_and_version]
  rw [pyStrip_eq_self (fun c hc => (base_facts hB c hc).1), pyUpper_base hB,
    takeWhile_eq_self (fun c hc => (base_facts hB c hc).2.2.1),
    findVEq_none hnoeq, removeVEq_id hnoeq,
    pyStrip_eq_self (fun c hc => (base_facts hB c hc).1), if_pos hB]
  simp

/-- The lenient history normalizer maps every key written by the daily batch
(`versionKey`) to itself: the two encodings agree. -/
theorem normalize_history_id_versionKey {B : List Char}
    (hB : (isNormalId B || isPromoId B) = true) (v : Nat) :
    normalize_history_id (versionKey B v) = versionKey B v := by
  have hnoeq : ∀ c ∈ B, c ≠ '=' := fun c hc => (base_facts hB c hc).2.2.2
  by_cases hv : v = 0
  · subst hv
    show normalize_history_id B = versionKey B 0
    simp only [normalize_history_id, versionKey, if_pos rfl]
    rw [pyStrip_eq_self (fun c hc => (base_facts hB c hc).1), pyUpper_base hB,
      takeWhile_eq_self (fun c hc => (base_facts hB c hc).2.2.1),
      findVEq_none hnoeq, removeVEq_id hnoeq,
      pyStrip_eq_self (fun c hc => (base_facts hB c hc).1), if_pos hB]
    simp
  · have hds := natDigits_all_digits v
    have hne := natDigits_ne_nil v
    have hkey : versionKey B v = B ++ 'v' :: '=' :: natDigits v := by
      simp [versionKey, hv]
    rw [hkey]
    have hfacts := encoded_facts hB hds 'v' (Or.inr rfl)
    simp only [normalize_history_id]
    rw [pyStrip_eq_self (fun c hc => (hfacts c hc).1),
      pyUpper_encoded hB hds 'v' (Or.inr rfl),
      takeWhile_eq_self (fun c hc =>
        (encoded_facts hB hds 'V' (Or.inl rfl) c hc).2),
      findVEq_append_v hnoeq hne hds, removeVEq_append_v hnoeq hne hds,
      pyStrip_eq_self (fun c hc => (base_facts hB c hc).1), if_pos hB,
      natOfDigits_natDigits]
    simp [Nat.pos_of_ne_zero hv]

/-!  ## Cache lemmas -/

theorem eraseC_keys {α : Type} (k : List Char) (st : CacheSt α) :
    ∀ e ∈ eraseC k st, e.1 ≠ k := by
  intro e he
  have := List.of_mem_filter he
  simpa using this

theorem mem_eraseC {α : Type} {k : List Char} {st : CacheSt α} :
    ∀ e ∈ eraseC k st, e ∈ st :=
  fun _ he => List.mem_of_mem_filter he

theorem lookupC_eraseC {α : Type} (k : List Char) (st : CacheSt α) :
    lookupC k (eraseC k st) = none := by
  induction st with
  | nil => rfl
  | cons e t ih =>
    by_cases hk : e.1 = k
    · simp only [eraseC, List.filter_cons, hk]
      simpa [eraseC] using ih
    · obtain ⟨k2, ts, v⟩ := e
      simp only at hk
      simp only [eraseC, List.filter_cons, decide_eq_true_eq]
      rw [if_pos (by simpa using hk)]
      show lookupC k ((k2, ts, v) :: eraseC k t) = none
      simp only [lookupC, if_neg hk]
      simpa [eraseC] using ih

theorem lookupC_append_right {α : Type} (k : List Char) (ts : Int) (v : α)
    {l : CacheSt α} (h : ∀ e ∈ l, e.1 ≠ k) :
    lookupC k (l ++ [(k, ts, v)]) = some (ts, v) := by
  induction l with
  | nil => simp [lookupC]
  | cons e t ih =>
    obtain ⟨k2, ts2, v2⟩ := e
    have hk2 : k2 ≠ k := h (k2, ts2, v2) (by simp)
    show lookupC k ((k2, ts2, v2) :: (t ++ [(k, ts, v)])) = some (ts, v)
    simp only [lookupC, if_neg hk2]
    exact ih (fun e he => h e (by simp [he]))

theorem lookupC_mem {α : Type} {k : List Char} {ts : Int} {v : α} :
    ∀ {st : CacheSt α}, lookupC k st = some (ts, v) → (k, ts, v) ∈ st := by
  intro st
  induction st with
  | nil => intro h; cases h
  | cons e t ih =>
    obtain ⟨k2, ts2, v2⟩ := e
    intro h
    simp only [lookupC] at h
    by_cases hk : k2 = k
    · rw [if_pos hk] at h
      obtain ⟨h1, h2⟩ := Prod.mk.injEq _ _ _ _ ▸ Option.some_inj.mp h
      subst hk h1 h2
      simp
    · rw [if_neg hk] at h
      exact List.mem_cons_of_mem _ (ih h)

theorem dropWhile_append_singleton {β : Type} {p : β → Bool} {l : List β} {x : β}
    (hx : p x = false) : (l ++ [x]).dropWhile p = l.dropWhile p ++ [x] := by
  induction l with
  | nil => simp [List.dropWhile, hx]
  | cons c t ih =>
    by_cases hc : p c
    · simpa [List.dropWhile_cons, hc] using ih
    · simp [List.dropWhile_cons, hc]

/-- After `set(k, v)`, the state is some middle section of the old state
(without `k`) followed by the fresh `(k, now, v)` entry. -/
theorem cacheSet_shape {α : Type} (ttl : Int) (m : Nat) (now : Int) (k : List Char)
    (v : α) (st : CacheSt α) (httl : 0 ≤ ttl) (hm : 1 ≤ m) :
    ∃ l : CacheSt α, cacheSet ttl m now k v st = l ++ [(k, now, v)] ∧
      ∀ e ∈ l, e ∈ eraseC k st := by
  unfold cacheSet evictExpired dropToSize
  have hfresh : (fun (e : List Char × Int × α) => decide (now - e.2.1 > ttl)) (k, now, v) = false := by
    simp only [decide_eq_false_iff_not]
    omega
  rw [dropWhile_append_singleton (l := eraseC k st) hfresh]
  set L := (eraseC k st).dropWhile (fun e => decide (now - e.2.1 > ttl)) with hL
  have hlen : (L ++ [(k, now, v)]).length = L.length + 1 := by simp
  rw [hlen, List.drop_append_of_le_length (by omega)]
  refine ⟨L.drop (L.length + 1 - m), rfl, ?_⟩
  intro e he
  have h1 : e ∈ L := (List.drop_sublist _ _).mem he
  exact (List.dropWhile_sublist _).mem h1

theorem cacheGet_after_set {α : Type} (ttl : Int) (m : Nat) (now : Int)
    (k : List Char) (v : α) (st : CacheSt α) (httl : 0 ≤ ttl) (hm : 1 ≤ m) :
    (cacheGet ttl now k (cacheSet ttl m now k v st)).1 = some v := by
  obtain ⟨l, hshape, hmem⟩ := cacheSet_shape ttl m now k v st httl hm
  rw [hshape]
  unfold cacheGet
  rw [lookupC_append_right k now v (fun e he => eraseC_keys k st e (hmem e he))]
  have h1 : ¬(now - now > ttl) := by omega
  have h2 : ¬(ttl < (0 : Int)) := by omega
  simp [h1, h2]

/-- Folding `set` over distinct keys from the empty cache: the state is the
most recent `maxsize` keys in insertion order, each with the write timestamp. -/
theorem foldl_cacheSet_distinct {α : Type} (ttl : Int) (m : Nat) (v : α)
    (httl : 0 ≤ ttl) :
    ∀ ks : List (List Char), ks.Nodup →
      (ks.foldl (fun st k => cacheSet ttl m 0 k v st) []) =
        (ks.drop (ks.length - m)).map (fun k => (k, (0 : Int), v)) := by
  intro ks
  induction ks using List.reverseRecOn with
  | nil => intro _; simp
  | append_singleton ks k ih =>
    intro hnd
    have hks : ks.Nodup := hnd.sublist (List.sublist_append_left ks [k])
    have hnotin : k ∉ ks := by
      rcases List.nodup_append.mp hnd with ⟨_, _, hdisj⟩
      intro hk
      exact hdisj hk (by simp)
    rw [List.foldl_append, List.foldl_cons, List.foldl_nil, ih hks]
    set prev := (ks.drop (ks.length - m)).map (fun k => (k, (0 : Int), v)) with hprev
    have hprevkeys : ∀ e ∈ prev, e.1 ≠ k := by
      intro e he
      rw [hprev] at he
      obtain ⟨k2, hk2, rfl⟩ := List.mem_map.mp he
      show k2 ≠ k
      intro hkk
      exact hnotin (hkk ▸ (List.drop_sublist _ _).mem hk2)
    have hprevts : ∀ e ∈ prev, e.2.1 = 0 := by
      intro e he
      rw [hprev] at he
      obtain ⟨k2, _, rfl⟩ := List.mem_map.mp he
      rfl
    unfold cacheSet evictExpired dropToSize
    have herase : eraseC k prev = prev :=
      List.filter_eq_self.mpr (fun e he => by
        simpa using hprevkeys e he)
    rw [herase]
    have hnoexp : ((prev ++ [(k, 0, v)]).dropWhile fun e => decide ((0 : Int) - e.2.1 > ttl)) =
        prev ++ [(k, 0, v)] := by
      apply dropWhile_eq_self
      intro e he
      simp only [decide_eq_false_iff_not]
      rcases List.mem_append.mp he with h | h
      · rw [hprevts e h]
        omega
      · simp at h
        rw [h]
        show ¬((0 : Int) - 0 > ttl)
        omega
    rw [hnoexp]
    have hprevlen : prev.length = ks.length - (ks.length - m) := by
      rw [hprev]
      simp
    by_cases hm0 : m = 0
    · subst hm0
      rw [Nat.sub_zero, Nat.sub_zero, List.drop_length, List.drop_length]
      simp
    · have hle : (prev ++ [(k, 0, v)]).length - m ≤ prev.length := by
        simp only [List.length_append, List.length_cons, List.length_nil]
        omega
      rw [List.drop_append_of_le_length hle]
      have hle2 : (ks ++ [k]).length - m ≤ ks.length := by
        simp only [List.length_append, List.length_cons, List.length_nil]
        omega
      rw [List.drop_append_of_le_length hle2, List.map_append]
      congr 1
      rw [hprev, ← List.map_drop, List.drop_drop]
      have hidx : ks.length - m +
          ((List.map (fun k2 => (k2, (0 : Int), v)) (List.drop (ks.length - m) ks) ++
            [(k, (0 : Int), v)]).length - m) = (ks ++ [k]).length - m := by
        simp only [List.length_append, List.length_cons, List.length_nil, List.length_map,
          List.length_drop]
        omega
      rw [hidx]

/-!  ## Scraper and serving-path lemmas -/

theorem priceDict_keys (u e : Rat) (uu eu : Option (List Char)) :
    (priceDict u e uu eu).map Prod.fst =
      ["usd_price", "eur_price", "usd_url", "eur_url"] := rfl

theorem dictAt_shape (l1 l2 : List Rat) (l3 l4 : List (Option (List Char))) (v : Nat) :
    dictAt l1 l2 l3 l4 v = none ∨
      ∃ u e uu eu, dictAt l1 l2 l3 l4 v = some (priceDict u e uu eu) := by
  unfold dictAt
  rcases h1 : l1[v]? with _ | u
  · exact Or.inl rfl
  rcases h2 : l2[v]? with _ | e
  · exact Or.inl rfl
  rcases h3 : l3[v]? with _ | uu
  · exact Or.inl rfl
  rcases h4 : l4[v]? with _ | eu
  · exact Or.inl rfl
  exact Or.inr ⟨u, e, uu, eu, rfl⟩

theorem dictAt_keys {l1 l2 : List Rat} {l3 l4 : List (Option (List Char))} {v : Nat}
    {d : List (String × JVal)} (h : dictAt l1 l2 l3 l4 v = some d) :
    d.map Prod.fst = ["usd_price", "eur_price", "usd_url", "eur_url"] := by
  rcases dictAt_shape l1 l2 l3 l4 v with hn | ⟨u, e, uu, eu, hs⟩
  · rw [hn] at h
    cases h
  · rw [hs] at h
    rw [← Option.some_inj.mp h]
    rfl

theorem scrape_prices_keys {doc : Doc} {v : Nat} {d : List (String × JVal)}
    (h : scrape_prices doc v = some d) :
    d.map Prod.fst = ["usd_price", "eur_price", "usd_url", "eur_url"] := by
  cases doc with
  | none =>
    simp only [scrape_prices] at h
    rw [← Option.some_inj.mp h]
    rfl
  | some trs =>
    simp only [scrape_prices] at h
    exact dictAt_keys h

theorem lookup_eq_none_of_keys {k : String} :
    ∀ {l : List (String × JVal)}, k ∉ l.map Prod.fst → l.lookup k = none := by
  intro l
  induction l with
  | nil => intro _; rfl
  | cons e t ih =>
    obtain ⟨k2, v2⟩ := e
    intro h
    have hne : k ≠ k2 := by
      intro he
      exact h (by simp [he])
    simp only [List.lookup, show (k == k2) = false from beq_eq_false_iff_ne.mpr hne]
    exact ih (fun hm => h (by simp [hm]))

theorem cacheGet_none_subset {α : Type} {ttl now : Int} {k : List Char}
    {st st1 : CacheSt α} (h : cacheGet ttl now k st = (none, st1)) :
    ∀ e ∈ st1, e ∈ st := by
  unfold cacheGet at h
  rcases hl : lookupC k st with _ | ⟨ts, v⟩ <;> simp only [hl] at h
  · obtain ⟨-, h2⟩ := Prod.mk.inj h
    rw [← h2]
    exact fun e he => he
  · by_cases hex : now - ts > ttl
    · rw [if_pos hex] at h
      obtain ⟨-, h2⟩ := Prod.mk.inj h
      rw [← h2]
      exact mem_eraseC
    · rw [if_neg hex] at h
      obtain ⟨h1, -⟩ := Prod.mk.inj h
      cases h1

theorem cacheGet_some_state {α : Type} {ttl now : Int} {k : List Char} {val : α}
    {st st1 : CacheSt α} (h : cacheGet ttl now k st = (some val, st1)) :
    (∃ ts, (k, ts, val) ∈ st) ∧
      ∀ e ∈ st1, e ∈ st ∨ ∃ ts, e = (k, ts, val) := by
  unfold cacheGet at h
  rcases hl : lookupC k st with _ | ⟨ts, v⟩ <;> simp only [hl] at h
  · obtain ⟨h1, -⟩ := Prod.mk.inj h
    cases h1
  · by_cases hex : now - ts > ttl
    · rw [if_pos hex] at h
      obtain ⟨h1, -⟩ := Prod.mk.inj h
      cases h1
    · rw [if_neg hex] at h
      obtain ⟨h1, h2⟩ := Prod.mk.inj h
      obtain rfl := Option.some_inj.mp h1
      refine ⟨⟨ts, lookupC_mem hl⟩, ?_⟩
      rw [← h2]
      intro e he
      rcases List.mem_append.mp he with hm | hm
      · exact Or.inl (mem_eraseC e hm)
      · right
        exact ⟨ts, by simpa using hm⟩

theorem mem_cacheSet {α : Type} {ttl : Int} {m : Nat} {now : Int} {k : List Char}
    {v : α} {st : CacheSt α} :
    ∀ e ∈ cacheSet ttl m now k v st, e ∈ st ∨ e = (k, now, v) := by
  intro e he
  unfold cacheSet dropToSize evictExpired at he
  have h1 := (List.drop_sublist _ _).mem he
  have h2 := (List.dropWhile_sublist _).mem h1
  rcases List.mem_append.mp h2 with hm | hm
  · exact Or.inl (mem_eraseC e hm)
  · exact Or.inr (by simpa using hm)

/-!  ## History-query lemmas -/

theorem fetch_history_sorted_aux (t : List SnapRow) (key_val : List Char) (lim : Nat) :
    (((((t.filter (fun r => r.key = key_val)).insertionSort dateGE).take lim).reverse).map
      (fun r => (r.date, r.eur, r.usd))).Pairwise
        (fun a b : Nat × Rat × Rat => a.1 ≤ b.1) := by
  apply List.pairwise_map.mpr
  apply List.pairwise_reverse.mpr
  have hs : ((t.filter (fun r => r.key = key_val)).insertionSort dateGE).Sorted dateGE :=
    List.sorted_insertionSort dateGE _
  exact (hs.sublist (List.take_sublist _ _)).imp (fun {a b} hab => hab)

/-- Rows of the sorted prefix dominate (by date) rows of the dropped suffix. -/
theorem take_drop_dates (l : List SnapRow) (hs : l.Sorted dateGE) (n : Nat) :
    ∀ a ∈ l.take n, ∀ b ∈ l.drop n, b.date ≤ a.date := by
  have hsplit : l.take n ++ l.drop n = l := List.take_append_drop n l
  rw [← hsplit] at hs
  exact fun a ha b hb => (List.pairwise_append.mp hs).2.2 a ha b hb

/-!  ## Snapshot-store lemmas -/

theorem insertOrIgnore_noop {r : SnapRow} {t : List SnapRow}
    (h : ∃ x ∈ t, x.key = r.key ∧ x.date = r.date) : insertOrIgnore r t = t := by
  unfold insertOrIgnore
  rw [if_pos]
  obtain ⟨x, hx, h1, h2⟩ := h
  exact List.any_eq_true.mpr ⟨x, hx, by simp [h1, h2]⟩

theorem insertOrIgnore_unique {r : SnapRow} {t : List SnapRow}
    (h : uniqueKeyDate t) : uniqueKeyDate (insertOrIgnore r t) := by
  unfold insertOrIgnore
  by_cases hdup : t.any (fun x => x.key = r.key && x.date = r.date)
  · rw [if_pos hdup]
    exact h
  · rw [if_neg hdup]
    unfold uniqueKeyDate
    rw [List.pairwise_append]
    refine ⟨h, List.pairwise_singleton _ _, ?_⟩
    intro x hx y hy
    have hy2 : y = r := by simpa using hy
    subst hy2
    intro ⟨h1, h2⟩
    exact hdup (List.any_eq_true.mpr ⟨x, hx, by simp [h1, h2]⟩)

theorem foldl_insertOrIgnore_unique (rs : List SnapRow) :
    ∀ t : List SnapRow, uniqueKeyDate t →
      uniqueKeyDate (rs.foldl (fun tb x => insertOrIgnore x tb) t) := by
  induction rs with
  | nil => exact fun t ht => ht
  | cons r rest ih =>
    intro t ht
    exact ih _ (insertOrIgnore_unique ht)

theorem mem_insertOrIgnore {r e : SnapRow} {t : List SnapRow}
    (h : e ∈ insertOrIgnore r t) : e ∈ t ∨ e = r := by
  unfold insertOrIgnore at h
  by_cases hdup : t.any (fun x => x.key = r.key && x.date = r.date)
  · rw [if_pos hdup] at h
    exact Or.inl h
  · rw [if_neg hdup] at h
    rcases List.mem_append.mp h with hm | hm
    · exact Or.inl hm
    · exact Or.inr (by simpa using hm)

/-!  ## Daily-batch lemmas -/

theorem batchCards_mem (versionsOf : List Char → Option (List (List Char)))
    (scrape : List Char → Rat × Rat) (today : Nat) :
    ∀ (codes : List (List Char))
      (t : List SnapRow), ∀ e ∈ batchCards versionsOf scrape today codes t,
      e ∈ t ∨ ¬((e.eur = 0) ∧ (e.usd = 0)) := by
  have inner : ∀ (cids : List (List Char)) (tb : List SnapRow),
      ∀ e ∈ cids.foldl
        (fun tb2 cid =>
          let p := scrape cid
          if p.1 = 0 && p.2 = 0 then tb2
          else insertOrIgnore ⟨cid, today, p.1, p.2⟩ tb2) tb,
      e ∈ tb ∨ ¬((e.eur = 0) ∧ (e.usd = 0)) := by
    intro cids
    induction cids with
    | nil => exact fun tb e he => Or.inl he
    | cons cid rest ih =>
      intro tb e he
      rw [List.foldl_cons] at he
      rcases ih _ e he with hm | hp
      · by_cases hz : ((scrape cid).1 = 0 && (scrape cid).2 = 0) = true
        · simp only [hz, if_pos] at hm
          exact Or.inl hm
        · simp only [hz, if_neg, Bool.not_eq_true] at hm
          rcases mem_insertOrIgnore hm with hm2 | hm2
          · exact Or.inl hm2
          · right
            rw [hm2]
            intro ⟨h1, h2⟩
            simp only [Bool.and_eq_true, decide_eq_true_eq] at hz
            exact hz ⟨h1, h2⟩
      · exact Or.inr hp
  intro codes
  induction codes with
  | nil => exact fun t e he => Or.inl he
  | cons code rest ih =>
    intro t e he
    rw [batchCards, List.foldl_cons] at he
    rcases hv : versionsOf code with _ | cids <;> rw [hv] at he
    · exact ih t e he
    · rcases ih _ e he with hm | hp
      · exact inner cids t e hm
      · exact Or.inr hp

theorem scrape_card_price_error (card_id : List Char) :
    scrape_card_price card_id (Except.error ()) = (0, 0) := by
  unfold scrape_card_price
  rcases h : basePrefixMatch card_id with _ | b <;> simp

/-- A row of the key that is not among the returned rows is dated no later
than every returned row (for any effective limit). -/
theorem fetch_history_recent_aux (t : List SnapRow) (key_val : List Char) (lim : Nat) :
    ∀ r ∈ t, r.key = key_val →
    (r.date, r.eur, r.usd) ∉
      (((((t.filter (fun r2 => r2.key = key_val)).insertionSort dateGE).take lim).reverse).map
        (fun r2 => (r2.date, r2.eur, r2.usd))) →
    ∀ x ∈ (((((t.filter (fun r2 => r2.key = key_val)).insertionSort dateGE).take lim).reverse).map
        (fun r2 => (r2.date, r2.eur, r2.usd))), r.date ≤ x.1 := by
  intro r hr hk hnot x hx
  set F := t.filter (fun r2 => r2.key = key_val) with hF
  set S := F.insertionSort dateGE with hS
  have hrF : r ∈ F := by
    rw [hF]
    exact List.mem_filter.mpr ⟨hr, by simp [hk]⟩
  have hrS : r ∈ S := ((List.perm_insertionSort dateGE F).mem_iff).mpr hrF
  have hrtake : r ∉ S.take lim := by
    intro hmem
    apply hnot
    exact List.mem_map.mpr ⟨r, List.mem_reverse.mpr hmem, rfl⟩
  have hrdrop : r ∈ S.drop lim := by
    have hsplit : r ∈ S.take lim ++ S.drop lim := by
      rw [List.take_append_drop lim S]
      exact hrS
    rcases List.mem_append.mp hsplit with hm | hm
    · exact absurd hm hrtake
    · exact hm
  obtain ⟨a, ha, rfl⟩ := List.mem_map.mp hx
  have haS : a ∈ S.take lim := List.mem_reverse.mp ha
  exact take_drop_dates S (List.sorted_insertionSort dateGE F) lim a haS r hrdrop

/-!  ## Claim theorems -/

/-- Claim C1, counterexample: the claim asserts that the price-cache key of
`get_price` and the Snapshot Store key of the daily batch are the same string
for every `(base, version)`; at `("OP01-001", 1)` the cache key is
`OP01-001?v=1` while the batch key is `OP01-001v=1`. -/
theorem claim_C1_counterexample :
    priceCacheKey "OP01-001".data 1 ≠ versionKey "OP01-001".data 1 := by decide

/-- Claim C1 (amended): the Snapshot Store key of the daily batch and the
history-lookup normalizer share one encoding — `normalize_history_id` maps
every batch key to itself — and the price-cache key agrees with it at version
`0`; but for every version `> 0` the cache key (`base?v=K`) differs from the
batch key (`basev=K`). -/
theorem claim_C1 (B : List Char) (hB : (isNormalId B || isPromoId B) = true)
    (v : Nat) (hv : 0 < v) :
    normalize_history_id (versionKey B v) = versionKey B v
    ∧ priceCacheKey B 0 = versionKey B 0
    ∧ priceCacheKey B v ≠ versionKey B v := by
  refine ⟨normalize_history_id_versionKey hB v, by simp [priceCacheKey, versionKey], ?_⟩
  intro h
  have hlen := congrArg List.length h
  have hv' : v ≠ 0 := Nat.pos_iff_ne_zero.mp hv
  simp [priceCacheKey, versionKey, hv, hv'] at hlen

/-- Claim C1 witness: the amended statement at `("OP01-001", 1)`. -/
theorem claim_C1_witness :
    normalize_history_id (versionKey "OP01-001".data 1) = versionKey "OP01-001".data 1
    ∧ priceCacheKey "OP01-001".data 0 = versionKey "OP01-001".data 0
    ∧ priceCacheKey "OP01-001".data 1 ≠ versionKey "OP01-001".data 1 :=
  claim_C1 "OP01-001".data (by decide) 1 (by decide)

/-- Claim C3: the code crashes instead of returning the all-zero result when
the extracted row list is empty.  A page whose price table consists of a
single header row (or no rows at all) makes `scrape_prices` raise an uncaught
`IndexError` (`usd_prices[0]` on an empty list, modelled as `none`), for any
requested version; only the no-table case returns the all-zero dict. -/
theorem claim_C3 :
    scrape_prices (some [⟨true, none, none, none, none⟩]) 0 = none
    ∧ scrape_prices (some []) 2 = none
    ∧ scrape_prices none 2 = some (priceDict 0 0 none none) := by decide

/-- Claim C4: normalizing `B ++ "V=" ++ str v` with no explicit version
yields `(B, v)` for every valid base code `B`; an explicit version parameter
takes precedence over anything embedded (the result's version is its clamped
value); with neither marker nor parameter the version is `0`; and a negative
explicit version clamps to `0`. -/
theorem claim_C4 (B : List Char) (hB : (isNormalId B || isPromoId B) = true)
    (v : Nat) :
    normalize_card_and_version (B ++ 'V' :: '=' :: natDigits v) none = some (B, v)
    ∧ (∀ raw : List Char, ∀ q : Int, ∀ base ver,
        normalize_card_and_version raw (some q) = some (base, ver) → ver = q.toNat)
    ∧ (∀ raw : List Char, ∀ base ver, findVEq (pyUpper (pyStrip raw)) = none →
        normalize_card_and_version raw none = some (base, ver) → ver = 0)
    ∧ (∀ raw : List Char, ∀ q : Int, q < 0 → ∀ base ver,
        normalize_card_and_version raw (some q) = some (base, ver) → ver = 0) := by
  refine ⟨?_, ?_, ?_, ?_⟩
  · rw [normalize_encoded hB (natDigits_ne_nil v) (natDigits_all_digits v) 'V' (Or.inl rfl),
      natOfDigits_natDigits]
  · intro raw q base ver h
    simp only [normalize_card_and_version] at h
    by_cases hg : (isNormalId (pyStrip (removeVEq ((pyUpper (pyStrip raw)).takeWhile notQAmp)))
        || isPromoId (pyStrip (removeVEq ((pyUpper (pyStrip raw)).takeWhile notQAmp)))) = true
    · rw [if_pos hg] at h
      exact ((Prod.mk.injEq _ _ _ _).mp (Option.some_inj.mp h).symm).2
    · rw [if_neg (by simp [hg])] at h
      cases h
  · intro raw base ver hemb h
    simp only [normalize_card_and_version, hemb] at h
    by_cases hg : (isNormalId (pyStrip (removeVEq ((pyUpper (pyStrip raw)).takeWhile notQAmp)))
        || isPromoId (pyStrip (removeVEq ((pyUpper (pyStrip raw)).takeWhile notQAmp)))) = true
    · rw [if_pos hg] at h
      exact ((Prod.mk.injEq _ _ _ _).mp (Option.some_inj.mp h).symm).2
    · rw [if_neg (by simp [hg])] at h
      cases h
  · intro raw q hq base ver h
    simp only [normalize_card_and_version] at h
    by_cases hg : (isNormalId (pyStrip (removeVEq ((pyUpper (pyStrip raw)).takeWhile notQAmp)))
        || isPromoId (pyStrip (removeVEq ((pyUpper (pyStrip raw)).takeWhile notQAmp)))) = true
    · rw [if_pos hg] at h
      have := ((Prod.mk.injEq _ _ _ _).mp (Option.some_inj.mp h).symm).2
      rw [this]
      exact Int.toNat_of_nonpos (le_of_lt hq)
    · rw [if_neg (by simp [hg])] at h
      cases h

/-- Claim C4 witness: the statement at `B = "OP01-001"`, `v = 2`. -/
theorem claim_C4_witness :
    normalize_card_and_version ("OP01-001".data ++ 'V' :: '=' :: natDigits 2) none
      = some ("OP01-001".data, 2)
    ∧ (∀ raw : List Char, ∀ q : Int, ∀ base ver,
        normalize_card_and_version raw (some q) = some (base, ver) → ver = q.toNat)
    ∧ (∀ raw : List Char, ∀ base ver, findVEq (pyUpper (pyStrip raw)) = none →
        normalize_card_and_version raw none = some (base, ver) → ver = 0)
    ∧ (∀ raw : List Char, ∀ q : Int, q < 0 → ∀ base ver,
        normalize_card_and_version raw (some q) = some (base, ver) → ver = 0) :=
  claim_C4 "OP01-001".data (by decide) 2

/-- Claim C5: when the computed base (upper-cased, trimmed, query fragments
and any residual `V=` digits removed) matches neither grammar, normalization
fails (`ValueError`, modelled as `none`) and the `/price` endpoint returns the
error payload with the raw `card_id` and no price data, without failing hard. -/
theorem claim_C5 (raw : List Char) (vq : Option Int)
    (st : CacheSt (List (String × JVal))) (now : Int) (doc : Doc)
    (h : (isNormalId (pyStrip (removeVEq ((pyUpper (pyStrip raw)).takeWhile notQAmp)))
        || isPromoId (pyStrip (removeVEq ((pyUpper (pyStrip raw)).takeWhile notQAmp)))) = false) :
    normalize_card_and_version raw vq = none
    ∧ get_price raw vq st now doc = (PriceResponse.err raw, st) := by
  have h1 : normalize_card_and_version raw vq = none := by
    simp only [normalize_card_and_version]
    rw [if_neg (by simp [h])]
  refine ⟨h1, ?_⟩
  unfold get_price
  rw [h1]

/-- Claim C5 witness: the statement at the invalid raw id `"BOGUS"`. -/
theorem claim_C5_witness :
    normalize_card_and_version "BOGUS".data none = none
    ∧ get_price "BOGUS".data none [] 0 none = (PriceResponse.err "BOGUS".data, []) :=
  claim_C5 "BOGUS".data none [] 0 none (by decide)

/-- Claim C7: price-text parsing strips the comma as a thousands separator
when both comma and point are present, treats a lone comma as the decimal
point, and yields `0.0` for an em-dash, the empty string, and any other
unparsable input (the embedding is total: every failure is caught). -/
theorem claim_C7 :
    parse_price "2,980.66".data = 298066 / 100
    ∧ parse_price "2980,66".data = 298066 / 100
    ∧ parse_price "—".data = 0
    ∧ parse_price "".data = 0 := by
  have h1 : parse_price "2,980.66".data = mkRat 298066 100 := by decide
  have h2 : parse_price "2980,66".data = mkRat 298066 100 := by decide
  refine ⟨?_, ?_, by decide, by decide⟩
  · rw [h1, Rat.mkRat_eq_div]
    norm_num
  · rw [h2, Rat.mkRat_eq_div]
    norm_num

/-- Claim C6: for the bounded TTL/LRU cache, a `get` immediately after
`set(k, v)` returns `v`; a hit older than the TTL is a miss that removes the
entry; inserting `maxsize + 1` distinct unexpired keys leaves exactly
`maxsize` entries, the least-recently-used (first-inserted) key being the one
evicted; a fresh hit promotes its key to most-recently-used; and, concretely,
a `get` between inserts protects its key from the next eviction. -/
theorem claim_C6 {α : Type} (ttl : Int) (m : Nat) (now ts : Int) (k : List Char)
    (v val : α) (st : CacheSt α) (ks : List (List Char))
    (httl : 0 ≤ ttl) (hm : 1 ≤ m) (hnd : ks.Nodup) (hlen : ks.length = m + 1) :
    (cacheGet ttl now k (cacheSet ttl m now k v st)).1 = some v
    ∧ (lookupC k st = some (ts, val) → now - ts > ttl →
        cacheGet ttl now k st = (none, eraseC k st)
        ∧ lookupC k (eraseC k st) = none)
    ∧ ((ks.foldl (fun st2 k2 => cacheSet ttl m 0 k2 v st2) []).map (fun e => e.1)
          = ks.drop 1
        ∧ (ks.foldl (fun st2 k2 => cacheSet ttl m 0 k2 v st2) []).length = m)
    ∧ (lookupC k st = some (ts, val) → ¬(now - ts > ttl) →
        cacheGet ttl now k st = (some val, eraseC k st ++ [(k, ts, val)]))
    ∧ (cacheSet 10 2 0 "c".data ()
        ((cacheGet 10 0 "a".data
          (["a".data, "b".data].foldl
            (fun st2 k2 => cacheSet 10 2 0 k2 () st2) [])).2)).map (fun e => e.1)
        = ["a".data, "c".data] := by
  refine ⟨cacheGet_after_set ttl m now k v st httl hm, ?_, ?_, ?_, by decide⟩
  · intro hl hex
    constructor
    · unfold cacheGet
      simp only [hl]
      rw [if_pos hex]
    · exact lookupC_eraseC k st
  · rw [foldl_cacheSet_distinct ttl m v httl ks hnd, hlen]
    constructor
    · rw [List.map_map]
      show List.map (fun k2 => k2) (ks.drop (m + 1 - m)) = ks.drop 1
      rw [List.map_id_fun', show m + 1 - m = 1 from by omega]
      rfl
    · rw [List.length_map, List.length_drop, hlen]
      omega
  · intro hl hfresh
    unfold cacheGet
    simp only [hl]
    rw [if_neg hfresh]

/-- Claim C6 witness: the statement at `ttl = 10`, `maxsize = 2`, a cache
holding `("k", 1, 9)` queried at instant `5`, and three distinct keys. -/
theorem claim_C6_witness :
    (cacheGet 10 5 "k".data (cacheSet 10 2 5 "k".data 7 [("k".data, 1, 9)])).1 = some 7
    ∧ (lookupC "k".data [("k".data, (1 : Int), 9)] = some (1, 9) → (5 : Int) - 1 > 10 →
        cacheGet 10 5 "k".data [("k".data, (1 : Int), 9)]
          = (none, eraseC "k".data [("k".data, (1 : Int), 9)])
        ∧ lookupC "k".data (eraseC "k".data [("k".data, (1 : Int), 9)]) = none)
    ∧ ((["x".data, "y".data, "z".data].foldl
          (fun st2 k2 => cacheSet 10 2 0 k2 7 st2) []).map (fun e => e.1)
          = ["x".data, "y".data, "z".data].drop 1
        ∧ (["x".data, "y".data, "z".data].foldl
          (fun st2 k2 => cacheSet 10 2 0 k2 7 st2) []).length = 2)
    ∧ (lookupC "k".data [("k".data, (1 : Int), 9)] = some (1, 9) → ¬((5 : Int) - 1 > 10) →
        cacheGet 10 5 "k".data [("k".data, (1 : Int), 9)]
          = (some 9, eraseC "k".data [("k".data, (1 : Int), 9)] ++ [("k".data, 1, 9)]))
    ∧ (cacheSet 10 2 0 "c".data ()
        ((cacheGet 10 0 "a".data
          (["a".data, "b".data].foldl
            (fun st2 k2 => cacheSet 10 2 0 k2 () st2) [])).2)).map (fun e => e.1)
        = ["a".data, "c".data] :=
  claim_C6 10 2 5 1 "k".data 7 9 [("k".data, 1, 9)]
    ["x".data, "y".data, "z".data] (by decide) (by decide) (by decide) (by decide)

/-- Claim C8: the history query returns rows in ascending date order; with a
positive requested limit it returns at most `min limit 2000` rows and a
missing or non-positive limit defaults to `365`; and when rows are omitted
they are the oldest ones — every stored row of the key that is not returned
is dated no later than every returned row. -/
theorem claim_C8 (t : List SnapRow) (key_val : List Char) (limit : Option Int) :
    (fetch_history t key_val limit).Pairwise (fun a b => a.1 ≤ b.1)
    ∧ (∀ l : Int, limit = some l → 0 < l →
        (fetch_history t key_val limit).length ≤ min l.toNat 2000)
    ∧ ((limit = none ∨ ∃ l, limit = some l ∧ l ≤ 0) →
        (fetch_history t key_val limit).length ≤ 365)
    ∧ (∀ r ∈ t, r.key = key_val →
        (r.date, r.eur, r.usd) ∉ fetch_history t key_val limit →
        ∀ x ∈ fetch_history t key_val limit, r.date ≤ x.1) := by
  have hlen : ∀ lim : Nat,
      ((((((t.filter (fun r => r.key = key_val)).insertionSort dateGE).take lim).reverse).map
        (fun r => (r.date, r.eur, r.usd))).length ≤ lim) := by
    intro lim
    rw [List.length_map, List.length_reverse, List.length_take]
    exact min_le_left _ _
  refine ⟨fetch_history_sorted_aux t key_val _, ?_, ?_, ?_⟩
  · intro l hl hpos
    subst hl
    unfold fetch_history
    simp only [Option.getD_some]
    rw [if_neg (show ¬(l ≤ 0) from by omega)]
    by_cases hbig : l > 2000
    · rw [if_pos hbig]
      refine le_trans (hlen 2000) ?_
      omega
    · rw [if_neg hbig]
      refine le_trans (hlen l.toNat) ?_
      omega
  · intro hcase
    unfold fetch_history
    rcases hcase with hl | ⟨l, hl, hle⟩ <;> subst hl
    · simp only [Option.getD_none]
      rw [if_neg (show ¬((365 : Int) ≤ 0) from by norm_num),
        if_neg (show ¬((365 : Int) > 2000) from by norm_num)]
      refine le_trans (hlen _) ?_
      decide
    · simp only [Option.getD_some]
      rw [if_pos hle, if_neg (show ¬((365 : Int) > 2000) from by norm_num)]
      refine le_trans (hlen _) ?_
      decide
  · intro r hr hk hnot x hx
    unfold fetch_history at hnot hx
    exact fetch_history_recent_aux t key_val _ r hr hk hnot x hx

/-- Claim C8 witness: the statement at a concrete three-row table. -/
theorem claim_C8_witness :
    (fetch_history [⟨"K".data, 1, 1, 1⟩, ⟨"K".data, 3, 3, 3⟩, ⟨"K".data, 2, 2, 2⟩]
        "K".data (some 2)).Pairwise (fun a b => a.1 ≤ b.1)
    ∧ (∀ l : Int, (some 2 : Option Int) = some l → 0 < l →
        (fetch_history [⟨"K".data, 1, 1, 1⟩, ⟨"K".data, 3, 3, 3⟩, ⟨"K".data, 2, 2, 2⟩]
          "K".data (some 2)).length ≤ min l.toNat 2000)
    ∧ (((some 2 : Option Int) = none ∨ ∃ l, (some 2 : Option Int) = some l ∧ l ≤ 0) →
        (fetch_history [⟨"K".data, 1, 1, 1⟩, ⟨"K".data, 3, 3, 3⟩, ⟨"K".data, 2, 2, 2⟩]
          "K".data (some 2)).length ≤ 365)
    ∧ (∀ r ∈ [⟨"K".data, 1, 1, 1⟩, ⟨"K".data, 3, 3, 3⟩, (⟨"K".data, 2, 2, 2⟩ : SnapRow)],
        r.key = "K".data →
        (r.date, r.eur, r.usd) ∉ fetch_history
          [⟨"K".data, 1, 1, 1⟩, ⟨"K".data, 3, 3, 3⟩, ⟨"K".data, 2, 2, 2⟩] "K".data (some 2) →
        ∀ x ∈ fetch_history
          [⟨"K".data, 1, 1, 1⟩, ⟨"K".data, 3, 3, 3⟩, ⟨"K".data, 2, 2, 2⟩] "K".data (some 2),
          r.date ≤ x.1) :=
  claim_C8 [⟨"K".data, 1, 1, 1⟩, ⟨"K".data, 3, 3, 3⟩, ⟨"K".data, 2, 2, 2⟩] "K".data (some 2)

/-- Claim C9: the history tables keep at most one row per `(key, date)` pair
across any sequence of snapshot inserts, and an insert for an already present
`(key, date)` pair is a no-op that leaves the stored table (hence the
originally stored prices) unchanged. -/
theorem claim_C9 (t rs : List SnapRow) (r : SnapRow) (h : uniqueKeyDate t) :
    uniqueKeyDate (rs.foldl (fun tb x => insertOrIgnore x tb) t)
    ∧ ((∃ x ∈ t, x.key = r.key ∧ x.date = r.date) → insertOrIgnore r t = t) :=
  ⟨foldl_insertOrIgnore_unique rs t h, fun hd => insertOrIgnore_noop hd⟩

/-- Claim C9 witness: recording the same `(key, date)` row twice from an empty
table keeps the uniqueness invariant and the duplicate insert is a no-op. -/
theorem claim_C9_witness :
    uniqueKeyDate ([⟨"K".data, 1, 5, 6⟩, (⟨"K".data, 1, 7, 8⟩ : SnapRow)].foldl
      (fun tb x => insertOrIgnore x tb) [])
    ∧ ((∃ x ∈ [(⟨"K".data, 1, 5, 6⟩ : SnapRow)], x.key = ("K".data : List Char) ∧ x.date = 1) →
        insertOrIgnore ⟨"K".data, 1, 9, 9⟩ [⟨"K".data, 1, 5, 6⟩] = [⟨"K".data, 1, 5, 6⟩]) := by
  have := claim_C9 [(⟨"K".data, 1, 5, 6⟩ : SnapRow)] [⟨"K".data, 1, 5, 6⟩, ⟨"K".data, 1, 7, 8⟩]
    ⟨"K".data, 1, 9, 9⟩ (by simp [uniqueKeyDate])
  exact ⟨claim_C9 [] [⟨"K".data, 1, 5, 6⟩, ⟨"K".data, 1, 7, 8⟩] ⟨"K".data, 1, 9, 9⟩
    (by simp [uniqueKeyDate]) |>.1, this.2⟩

/-- Claim C10: the daily batch never records a card row whose EUR and USD
prices are both zero — every row present after the cards section was either
already stored or has a non-zero price pair — and the per-card scrape turns
every raised error into the `(0.0, 0.0)` pair instead of propagating it. -/
theorem claim_C10 (versionsOf : List Char → Option (List (List Char)))
    (scrape : List Char → Rat × Rat) (today : Nat) (codes : List (List Char))
    (t : List SnapRow) :
    (∀ e ∈ batchCards versionsOf scrape today codes t,
      e ∈ t ∨ ¬((e.eur = 0) ∧ (e.usd = 0)))
    ∧ (∀ cid : List Char, scrape_card_price cid (Except.error ()) = (0, 0)) :=
  ⟨batchCards_mem versionsOf scrape today codes t,
    fun cid => scrape_card_price_error cid⟩

/-- Claim C10 witness: the statement at a one-code batch whose scrape yields
`(0, 0)` for the base print and `(2, 3)` for print 1. -/
theorem claim_C10_witness :
    (∀ e ∈ batchCards (fun _ => some ["OP01-001".data, "OP01-001v=1".data])
      (fun cid => if cid = "OP01-001".data then (0, 0) else (2, 3)) 7
      ["OP01-001".data] [],
      e ∈ ([] : List SnapRow) ∨ ¬((e.eur = 0) ∧ (e.usd = 0)))
    ∧ (∀ cid : List Char, scrape_card_price cid (Except.error ()) = (0, 0)) :=
  claim_C10 (fun _ => some ["OP01-001".data, "OP01-001v=1".data])
    (fun cid => if cid = "OP01-001".data then (0, 0) else (2, 3)) 7
    ["OP01-001".data] []

/-- Claim C2, counterexample: a successful `/price` response whose `prices`
dict has no `pct_7d` or `pct_7d_usd` field — the serving path computes no
trend at all, so the claimed trend fields cannot appear. -/
theorem claim_C2_counterexample :
    (get_price "OP01-001".data none [] 0
        (some [⟨false, some "1.00".data, some "2.00".data, none, none⟩])).1
      = PriceResponse.ok "OP01-001".data (priceDict 1 2 none none) false
    ∧ "pct_7d" ∉ (priceDict (1 : Rat) 2 none none).map Prod.fst
    ∧ "pct_7d_usd" ∉ (priceDict (1 : Rat) 2 none none).map Prod.fst := by decide

/-- Claim C2 (amended): every successful `/price` response carries exactly the
four keys `usd_price`, `eur_price`, `usd_url`, `eur_url` in its `prices` dict
— in particular no `pct_7d`/`pct_7d_usd` trend fields, and no Snapshot Store
trend lookup happens on the serving path — provided every value already in
the cache is such a dict; that cache invariant is preserved. -/
theorem claim_C2 (card_id : List Char) (v : Option Int)
    (st : CacheSt (List (String × JVal))) (now : Int) (doc : Doc)
    (cid : List Char) (prices : List (String × JVal)) (cached : Bool)
    (st' : CacheSt (List (String × JVal)))
    (hwf : cacheWF st)
    (h : get_price card_id v st now doc = (PriceResponse.ok cid prices cached, st')) :
    prices.map Prod.fst = ["usd_price", "eur_price", "usd_url", "eur_url"]
    ∧ prices.lookup "pct_7d" = none
    ∧ prices.lookup "pct_7d_usd" = none
    ∧ cacheWF st' := by
  have hkeys : prices.map Prod.fst = ["usd_price", "eur_price", "usd_url", "eur_url"]
      ∧ cacheWF st' := by
    simp only [get_price] at h
    rcases hn : normalize_card_and_version card_id v with _ | ⟨base, version⟩ <;>
      simp only [hn] at h
    · obtain ⟨h1, -⟩ := Prod.mk.inj h
      cases h1
    · rcases hcg : cacheGet PRICE_TTL now (priceCacheKey base version) st with ⟨o, st1⟩
      rcases o with _ | val <;> simp only [hcg] at h
      · rcases hs : scrape_prices doc version with _ | d <;> simp only [hs] at h
        · obtain ⟨h1, -⟩ := Prod.mk.inj h
          cases h1
        · obtain ⟨h1, h2⟩ := Prod.mk.inj h
          injection h1 with e1 e2 e3
          subst e2
          refine ⟨scrape_prices_keys hs, ?_⟩
          intro e he
          rw [← h2] at he
          rcases mem_cacheSet e he with hm | hm
          · exact hwf e (cacheGet_none_subset hcg e hm)
          · rw [hm]
            exact scrape_prices_keys hs
      · obtain ⟨h1, h2⟩ := Prod.mk.inj h
        injection h1 with e1 e2 e3
        subst e2
        obtain ⟨⟨ts, hmem⟩, hsub⟩ := cacheGet_some_state hcg
        refine ⟨hwf _ hmem, ?_⟩
        intro e he
        rw [← h2] at he
        rcases hsub e he with hm | ⟨ts2, hm⟩
        · exact hwf e hm
        · rw [hm]
          show val.map Prod.fst = _
          exact hwf _ hmem
  refine ⟨hkeys.1, ?_, ?_, hkeys.2⟩
  · exact lookup_eq_none_of_keys (by rw [hkeys.1]; decide)
  · exact lookup_eq_none_of_keys (by rw [hkeys.1]; decide)

/-- Claim C2 witness: the amended statement at a concrete fresh request. -/
theorem claim_C2_witness :
    (priceDict (1 : Rat) 2 none none).map Prod.fst
      = ["usd_price", "eur_price", "usd_url", "eur_url"]
    ∧ (priceDict (1 : Rat) 2 none none).lookup "pct_7d" = none
    ∧ (priceDict (1 : Rat) 2 none none).lookup "pct_7d_usd" = none
    ∧ cacheWF [("OP01-001".data, 0, priceDict 1 2 none none)] :=
  claim_C2 "OP01-001".data none [] 0
    (some [⟨false, some "1.00".data, some "2.00".data, none, none⟩])
    "OP01-001".data (priceDict 1 2 none none) false
    [("OP01-001".data, 0, priceDict 1 2 none none)]
    (by intro e he; cases he)
    (by decide)

end OptcgSpec
